import Mathlib

/-!
Verification development for the text chunking and overlap-aware merging
pipeline of `pdf_to_txt.py` (class `PDFTextExtractor`).

Texts are modelled as `List Char` (Python strings are sequences of code
points).  The tokenizer (`tiktoken` in the source) is an external
dependency and is modelled as an abstract function `count : List Char → Nat`,
exactly as the specification's Tokenizer Adapter prescribes.  The LLM call
inside `clean_text_chunk_with_llm` is an external fallible service and is
modelled as an abstract `List Char → Option (List Char)`.
-/

/-- Whitespace test used by Python's `str.strip` (ASCII core: space, tab,
newline, carriage return, vertical tab, form feed). -/
def isSpaceChar (c : Char) : Bool :=
  c == ' ' || c == '\t' || c == '\n' || c == '\r' ||
    c == Char.ofNat 11 || c == Char.ofNat 12

/-- Python `s.strip()`: remove leading and trailing whitespace. -/
def strip (s : List Char) : List Char :=
  ((s.dropWhile isSpaceChar).reverse.dropWhile isSpaceChar).reverse

/-- The non-whitespace content of a text, used to state preservation
properties "whitespace normalization aside". -/
def noWS (s : List Char) : List Char :=
  s.filter (fun c => !isSpaceChar c)

/-- Helper for `splitPP`: prepend a character to the first piece of a
piece list (used when the current character is not part of a delimiter). -/
def consHead (c : Char) : List (List Char) → List (List Char)
  | [] => [[c]]
  | p :: ps => (c :: p) :: ps

/-- Python `text.split('\n\n')` (line 95 of the source): split on each
left-to-right non-overlapping occurrence of the exact two-newline
delimiter. -/
def splitPP : List Char → List (List Char)
  | [] => [[]]
  | [c] => [[c]]
  | c :: d :: rest =>
    if c = '\n' ∧ d = '\n' then [] :: splitPP rest
    else consHead c (splitPP (d :: rest))

/-- Inverse of `splitPP`: rejoin pieces with the two-newline delimiter. -/
def unsplitPP : List (List Char) → List Char
  | [] => []
  | [p] => p
  | p :: ps => p ++ '\n' :: '\n' :: unsplitPP ps

/-- A text contains a blank-line boundary, i.e. two consecutive newline
characters. -/
def hasBlankLine : List Char → Bool
  | [] => false
  | [_] => false
  | c :: d :: rest => (c == '\n' && d == '\n') || hasBlankLine (d :: rest)

/-- The Boundary Splitter of the spec: the paragraphs actually consumed by
the chunk loop, i.e. the `split('\n\n')` pieces with the ones that are
empty after `strip()` skipped (lines 95 and 101-102 of the source). -/
def paragraphsOf (t : List Char) : List (List Char) :=
  (splitPP t).filter (fun p => !(strip p).isEmpty)

/-- Sentence-terminal punctuation of the source's
`re.split(r'([.!?。!?])', paragraph)` character class:
`.`, `!`, `?` and U+3002 (the full-width forms in the class are ASCII
duplicates in the source file). -/
def isTerminal (c : Char) : Bool :=
  c == '.' || c == '!' || c == '?' || c == '。'

/-- Worker for `sentencesOf`; `acc` holds the current sentence reversed. -/
def sentencesGo (acc : List Char) : List Char → List (List Char)
  | [] => [acc.reverse]
  | c :: rest =>
    if isTerminal c then (acc.reverse ++ [c]) :: sentencesGo [] rest
    else sentencesGo (c :: acc) rest

/-- Sentences of an oversized paragraph (lines 114-116 of the source):
`re.split` with a captured terminal-punctuation group followed by the
`zip`-rejoin of each text piece with its punctuation mark.  The
recombination is equivalent to scanning the paragraph and cutting after
every terminal character; the trailing remainder (possibly empty) is the
final element. -/
def sentencesOf (p : List Char) : List (List Char) :=
  sentencesGo [] p

/-- Chunk-assembler state: the completed chunks so far together with the
current chunk buffer (`chunks` and `current_chunk` of the source). -/
abbrev ChunkSt := List (List Char) × List Char

/-- One iteration of the sentence loop of `split_text_into_chunks`
(lines 118-131 of the source): skip whitespace-only sentences, append a
sentence to the buffer when the result stays within budget, otherwise
flush the buffer and restart it with the sentence alone. -/
def stepSentence (count : List Char → Nat) (maxTokens : Nat)
    (st : ChunkSt) (sentence : List Char) : ChunkSt :=
  if strip sentence = [] then st
  else
    let test := if st.2 = [] then sentence else st.2 ++ sentence
    if count test ≤ maxTokens then (st.1, test)
    else if st.2 = [] then (st.1, sentence)
    else (st.1 ++ [st.2], sentence)

/-- One iteration of the paragraph loop of `split_text_into_chunks`
(lines 99-146 of the source): skip whitespace-only paragraphs; a
paragraph over the token budget flushes the buffer and is re-processed
sentence by sentence; otherwise greedily pack the paragraph into the
buffer with a blank-line separator, flushing when the budget would be
exceeded. -/
def stepParagraph (count : List Char → Nat) (maxTokens : Nat)
    (st : ChunkSt) (paragraph : List Char) : ChunkSt :=
  if strip paragraph = [] then st
  else if maxTokens < count paragraph then
    let st1 := if st.2 = [] then st else (st.1 ++ [st.2], ([] : List Char))
    (sentencesOf paragraph).foldl (stepSentence count maxTokens) st1
  else
    let test := if st.2 = [] then paragraph else st.2 ++ '\n' :: '\n' :: paragraph
    if count test ≤ maxTokens then (st.1, test)
    else if st.2 = [] then (st.1, paragraph)
    else (st.1 ++ [st.2], paragraph)

/-- Final flush of `split_text_into_chunks` (lines 149-151 of the
source): append the remaining buffer as a last chunk when it is
non-empty. -/
def finalFlush (st : ChunkSt) : List (List Char) :=
  if st.2 = [] then st.1 else st.1 ++ [st.2]

/-- The Chunk Assembler `split_text_into_chunks` (lines 83-158 of the
source): split on the two-newline delimiter, run the paragraph loop, then
flush any remaining non-empty buffer. -/
def split_text_into_chunks (count : List Char → Nat) (text : List Char)
    (maxTokens : Nat) : List (List Char) :=
  finalFlush ((splitPP text).foldl (stepParagraph count maxTokens) ([], []))

/-- Longest overlap search of `merge_chunks_with_overlap` (lines 216-222
of the source): try overlap lengths from the argument down to 1 and
return the first (hence largest) length at which the accumulator's suffix
equals the chunk's prefix, or 0 when none matches. -/
def overlapLen (result chunk : List Char) : Nat → Nat
  | 0 => 0
  | n + 1 =>
    if result.drop (result.length - (n + 1)) = chunk.take (n + 1) then n + 1
    else overlapLen result chunk n

/-- One iteration of the merge loop of `merge_chunks_with_overlap`
(lines 208-227 of the source): search for the longest overlap up to
`min(overlap_chars, len(result), len(chunk))`; on success append only the
chunk's tail after the overlap, otherwise concatenate directly. -/
def mergeStep (overlapChars : Nat) (result chunk : List Char) : List Char :=
  let m := min overlapChars (min result.length chunk.length)
  let L := overlapLen result chunk m
  if L = 0 then result ++ chunk else result ++ chunk.drop L

/-- The Overlap Merger `merge_chunks_with_overlap` (lines 196-229 of the
source): empty input yields the empty string, otherwise fold the merge
step over the remaining chunks starting from the first (the source's
`len(chunks) == 1` early return coincides with the fold over an empty
tail). -/
def merge_chunks_with_overlap (chunks : List (List Char))
    (overlapChars : Nat) : List Char :=
  match chunks with
  | [] => []
  | c :: rest => rest.foldl (mergeStep overlapChars) c

/-- ASCII lowering, the shallow embedding of the case-insensitive matching
performed by `re.search(r'REFERENCES', text, re.IGNORECASE)`. -/
def lowerChar (c : Char) : Char :=
  if 'A' ≤ c ∧ c ≤ 'Z' then Char.ofNat (c.toNat + 32) else c

/-- The word REFERENCES matches (case-insensitively) at position `i` of
the text. -/
def refsAt (text : List Char) (i : Nat) : Bool :=
  ((text.drop i).take 10).map lowerChar ==
    ('r' :: 'e' :: 'f' :: 'e' :: 'r' :: 'e' :: 'n' :: 'c' :: 'e' :: 's' :: [])

/-- Scan for the leftmost match position, as `re.search` does; the fuel is
the number of positions still to try. -/
def findRefsGo (text : List Char) (i : Nat) : Nat → Option Nat
  | 0 => none
  | fuel + 1 => if refsAt text i then some i else findRefsGo text (i + 1) fuel

/-- Position of the first case-insensitive occurrence of REFERENCES
(line 44 of the source). -/
def findRefs (text : List Char) : Option Nat :=
  findRefsGo text 0 text.length

/-- The preprocessing step `remove_references_section` (lines 33-55 of the
source): keep only the text strictly before the first case-insensitive
occurrence of REFERENCES, or the whole text when there is none. -/
def remove_references_section (text : List Char) : List Char :=
  match findRefs text with
  | some i => text.take i
  | none => text

/-- The Transform Stage `clean_text_chunk_with_llm` (lines 160-194 of the
source) with the remote LLM call abstracted as a fallible function: on
success the response is stripped (`cleaned_text.strip()`), on failure the
original chunk is returned unchanged (the `except` branch, line 194). -/
def clean_text_chunk_with_llm (llm : List Char → Option (List Char))
    (chunk : List Char) : List Char :=
  match llm chunk with
  | some cleaned => strip cleaned
  | none => chunk

/-- The Pipeline Orchestrator of the spec, i.e. steps 3-5 of
`extract_text_from_pdf` (lines 293-309 of the source) with the PDF I/O
and the reference-removal preprocessing abstracted away: assemble chunks,
transform each one independently in order, merge with overlap
detection. -/
def run (count : List Char → Nat) (text : List Char) (maxTokens : Nat)
    (transform : List Char → Option (List Char)) (overlapChars : Nat) :
    List Char :=
  let chunks := split_text_into_chunks count text maxTokens
  let cleaned := chunks.map (clean_text_chunk_with_llm transform)
  merge_chunks_with_overlap cleaned overlapChars

/-- The text content held by a chunk-assembler state: completed chunks
followed by the current buffer. -/
def contentOf (st : ChunkSt) : List Char :=
  st.1.flatten ++ st.2

/-- A text is one of the sentences of one of the input's paragraphs. -/
def IsSentenceOf (text c : List Char) : Prop :=
  ∃ p, p ∈ splitPP text ∧ c ∈ sentencesOf p

/-- Budget invariant carried through the assembler's folds: every
completed chunk is within budget unless it is a single sentence of the
input, and the buffer is empty, within budget, or a single sentence. -/
def BudgetInv (count : List Char → Nat) (maxT : Nat) (text : List Char)
    (st : ChunkSt) : Prop :=
  (∀ c ∈ st.1, count c ≤ maxT ∨ IsSentenceOf text c) ∧
    (st.2 = [] ∨ count st.2 ≤ maxT ∨ IsSentenceOf text st.2)


theorem noWS_append (a b : List Char) : noWS (a ++ b) = noWS a ++ noWS b :=
  List.filter_append a b

theorem noWS_cons_ws (c : Char) (s : List Char) (h : isSpaceChar c = true) :
    noWS (c :: s) = noWS s := by
  simp [noWS, List.filter_cons, h]

theorem noWS_dropWhile (s : List Char) :
    noWS (s.dropWhile isSpaceChar) = noWS s := by
  induction s with
  | nil => rfl
  | cons c cs ih =>
    rw [List.dropWhile_cons]
    by_cases h : isSpaceChar c = true
    · rw [if_pos h, ih, noWS_cons_ws c cs h]
    · rw [if_neg h]

theorem noWS_reverse (s : List Char) : noWS s.reverse = (noWS s).reverse :=
  List.filter_reverse _ s

theorem noWS_strip (s : List Char) : noWS (strip s) = noWS s := by
  unfold strip
  rw [noWS_reverse, noWS_dropWhile, noWS_reverse, List.reverse_reverse,
    noWS_dropWhile]

theorem strip_eq_nil_iff (s : List Char) :
    strip s = [] ↔ ∀ c ∈ s, isSpaceChar c = true := by
  constructor
  · intro h c hc
    have h1 : ((s.dropWhile isSpaceChar).reverse.dropWhile isSpaceChar) = [] :=
      List.reverse_eq_nil_iff.mp h
    have h2 : ∀ x ∈ (s.dropWhile isSpaceChar).reverse, isSpaceChar x = true :=
      List.dropWhile_eq_nil_iff.mp h1
    have h3 : ∀ x ∈ s.dropWhile isSpaceChar, isSpaceChar x = true := by
      intro x hx
      exact h2 x (List.mem_reverse.mpr hx)
    have h4 : s = s.takeWhile isSpaceChar ++ s.dropWhile isSpaceChar :=
      (List.takeWhile_append_dropWhile isSpaceChar s).symm
    rw [h4] at hc
    rcases List.mem_append.mp hc with hc | hc
    · exact List.mem_takeWhile_imp hc
    · exact h3 c hc
  · intro h
    have h1 : s.dropWhile isSpaceChar = [] := List.dropWhile_eq_nil_iff.mpr h
    simp [strip, h1]

theorem noWS_eq_nil (s : List Char) (h : strip s = []) : noWS s = [] := by
  rw [← noWS_strip, h]
  rfl

theorem ne_nil_of_strip_ne_nil (s : List Char) (h : strip s ≠ []) : s ≠ [] := by
  intro hs
  exact h (by rw [hs]; rfl)

theorem consHead_ne_nil (c : Char) (l : List (List Char)) : consHead c l ≠ [] := by
  cases l <;> simp [consHead]

theorem splitPP_ne_nil (t : List Char) : splitPP t ≠ [] := by
  induction t using splitPP.induct with
  | case1 => simp [splitPP]
  | case2 c => simp [splitPP]
  | case3 c d rest h ih =>
    rw [splitPP, if_pos h]
    simp
  | case4 c d rest h ih =>
    rw [splitPP, if_neg h]
    exact consHead_ne_nil c _

theorem unsplitPP_cons (p : List Char) (l : List (List Char)) (h : l ≠ []) :
    unsplitPP (p :: l) = p ++ '\n' :: '\n' :: unsplitPP l := by
  match l with
  | [] => exact absurd rfl h
  | q :: qs => rfl

theorem unsplitPP_consHead (c : Char) (l : List (List Char)) (h : l ≠ []) :
    unsplitPP (consHead c l) = c :: unsplitPP l := by
  match l with
  | [] => exact absurd rfl h
  | [p] => rfl
  | p :: q :: qs => rfl

theorem unsplit_splitPP (t : List Char) : unsplitPP (splitPP t) = t := by
  induction t using splitPP.induct with
  | case1 => rfl
  | case2 c => rfl
  | case3 c d rest h ih =>
    obtain ⟨hc, hd⟩ := h
    subst hc
    subst hd
    rw [splitPP, if_pos ⟨rfl, rfl⟩,
      unsplitPP_cons [] (splitPP rest) (splitPP_ne_nil rest), ih]
    rfl
  | case4 c d rest h ih =>
    rw [splitPP, if_neg h,
      unsplitPP_consHead c (splitPP (d :: rest)) (splitPP_ne_nil (d :: rest)), ih]

theorem splitPP_head (s : List Char) (q : List Char) (qs : List (List Char))
    (h : splitPP s = q :: qs) :
    q = [] ∨ ∃ c s' q', s = c :: s' ∧ q = c :: q' := by
  match s with
  | [] =>
    left
    simp [splitPP] at h
    exact h.1
  | [c] =>
    right
    simp [splitPP] at h
    exact ⟨c, [], [], rfl, h.1.symm⟩
  | c :: d :: rest =>
    by_cases hcd : c = '\n' ∧ d = '\n'
    · left
      rw [splitPP, if_pos hcd] at h
      exact (List.cons_eq_cons.mp h.symm).1
    · right
      rw [splitPP, if_neg hcd] at h
      match h2 : splitPP (d :: rest) with
      | [] => exact absurd h2 (splitPP_ne_nil (d :: rest))
      | x :: xs =>
        rw [h2] at h
        simp [consHead] at h
        exact ⟨c, d :: rest, x, rfl, h.1.symm⟩

theorem and_newline_false (c d : Char) (h : ¬(c = '\n' ∧ d = '\n')) :
    (c == '\n' && d == '\n') = false := by
  by_cases h1 : c = '\n'
  · by_cases h2 : d = '\n'
    · exact absurd ⟨h1, h2⟩ h
    · simp [h2]
  · simp [h1]

theorem hasBlankLine_cons_false (c : Char) (x : List Char)
    (hc : hasBlankLine x = false)
    (hh : ∀ d x', x = d :: x' → (c == '\n' && d == '\n') = false) :
    hasBlankLine (c :: x) = false := by
  match x with
  | [] => rfl
  | d :: x' =>
    show ((c == '\n' && d == '\n') || hasBlankLine (d :: x')) = false
    rw [hh d x' rfl, hc]
    rfl

theorem splitPP_noBlank (t : List Char) :
    ∀ p ∈ splitPP t, hasBlankLine p = false := by
  induction t using splitPP.induct with
  | case1 =>
    intro p hp
    simp [splitPP] at hp
    rw [hp]
    rfl
  | case2 c =>
    intro p hp
    simp [splitPP] at hp
    rw [hp]
    rfl
  | case3 c d rest h ih =>
    intro p hp
    rw [splitPP, if_pos h] at hp
    rcases List.mem_cons.mp hp with hp | hp
    · rw [hp]; rfl
    · exact ih p hp
  | case4 c d rest h ih =>
    intro p hp
    rw [splitPP, if_neg h] at hp
    match h2 : splitPP (d :: rest) with
    | [] => exact absurd h2 (splitPP_ne_nil (d :: rest))
    | x :: xs =>
      rw [h2] at hp
      simp only [consHead] at hp
      rcases List.mem_cons.mp hp with hp | hp
      · subst hp
        have hx : hasBlankLine x = false := by
          apply ih
          rw [h2]
          exact List.mem_cons_self x xs
        apply hasBlankLine_cons_false c x hx
        intro e x' hex
        rcases splitPP_head (d :: rest) x xs h2 with hnil | ⟨c', s', q', hcs, hq⟩
        · rw [hnil] at hex
          exact absurd hex (List.noConfusion)
        · have hcd : c' = d := (List.cons_eq_cons.mp hcs).1.symm
          rw [hq, hcd] at hex
          have hed : e = d := (List.cons_eq_cons.mp hex.symm).1
          subst hed
          exact and_newline_false c e h
      · apply ih
        rw [h2]
        exact List.mem_cons_of_mem x hp

theorem splitPP_of_noBlank (t : List Char) (ht : hasBlankLine t = false) :
    splitPP t = [t] := by
  induction t using splitPP.induct with
  | case1 => rfl
  | case2 c => rfl
  | case3 c d rest h ih =>
    exfalso
    obtain ⟨hc, hd⟩ := h
    subst hc
    subst hd
    simp [hasBlankLine] at ht
  | case4 c d rest h ih =>
    have ht' : hasBlankLine (d :: rest) = false := by
      have : ((c == '\n' && d == '\n') || hasBlankLine (d :: rest)) = false := ht
      exact (Bool.or_eq_false_iff.mp this).2
    rw [splitPP, if_neg h, ih ht']
    rfl

theorem splitPP_mem_chars (t : List Char) :
    ∀ p ∈ splitPP t, ∀ x ∈ p, x ∈ t := by
  induction t using splitPP.induct with
  | case1 =>
    intro p hp
    simp [splitPP] at hp
    rw [hp]
    intro x hx
    exact absurd hx (List.not_mem_nil x)
  | case2 c =>
    intro p hp
    simp [splitPP] at hp
    rw [hp]
    intro x hx
    exact hx
  | case3 c d rest h ih =>
    intro p hp
    rw [splitPP, if_pos h] at hp
    rcases List.mem_cons.mp hp with hp | hp
    · rw [hp]
      intro x hx
      exact absurd hx (List.not_mem_nil x)
    · intro x hx
      exact List.mem_cons_of_mem c (List.mem_cons_of_mem d (ih p hp x hx))
  | case4 c d rest h ih =>
    intro p hp
    rw [splitPP, if_neg h] at hp
    match h2 : splitPP (d :: rest) with
    | [] => exact absurd h2 (splitPP_ne_nil (d :: rest))
    | y :: ys =>
      rw [h2] at hp
      simp only [consHead] at hp
      rcases List.mem_cons.mp hp with hp | hp
      · subst hp
        intro x hx
        rcases List.mem_cons.mp hx with hx | hx
        · rw [hx]
          exact List.mem_cons_self c (d :: rest)
        · have hy : y ∈ splitPP (d :: rest) := by
            rw [h2]
            exact List.mem_cons_self y ys
          exact List.mem_cons_of_mem c (ih y hy x hx)
      · intro x hx
        have hpy : p ∈ splitPP (d :: rest) := by
          rw [h2]
          exact List.mem_cons_of_mem y hp
        exact List.mem_cons_of_mem c (ih p hpy x hx)

theorem noWS_unsplitPP (l : List (List Char)) :
    noWS (unsplitPP l) = noWS l.flatten := by
  induction l with
  | nil => rfl
  | cons p tail ih =>
    match tail with
    | [] => simp [unsplitPP, List.flatten_cons, List.flatten_nil]
    | q :: qs =>
      rw [unsplitPP_cons p (q :: qs) (by simp), noWS_append,
        noWS_cons_ws '\n' _ (by decide), noWS_cons_ws '\n' _ (by decide), ih]
      simp [List.flatten_cons, noWS_append]

theorem noWS_splitPP_flatten (t : List Char) :
    noWS (splitPP t).flatten = noWS t := by
  rw [← noWS_unsplitPP, unsplit_splitPP]

theorem sentencesGo_flatten (s : List Char) :
    ∀ acc, (sentencesGo acc s).flatten = acc.reverse ++ s := by
  induction s with
  | nil => intro acc; simp [sentencesGo, List.flatten_cons]
  | cons c rest ih =>
    intro acc
    by_cases hc : isTerminal c = true
    · show (if isTerminal c then (acc.reverse ++ [c]) :: sentencesGo [] rest
        else sentencesGo (c :: acc) rest).flatten = acc.reverse ++ c :: rest
      rw [if_pos hc, List.flatten_cons, ih []]
      simp
    · show (if isTerminal c then (acc.reverse ++ [c]) :: sentencesGo [] rest
        else sentencesGo (c :: acc) rest).flatten = acc.reverse ++ c :: rest
      rw [if_neg hc, ih (c :: acc)]
      simp

theorem sentencesOf_flatten (p : List Char) : (sentencesOf p).flatten = p := by
  rw [sentencesOf, sentencesGo_flatten p []]
  rfl

theorem noWS_nil : noWS [] = [] := rfl

theorem noWS_nl (s : List Char) : noWS ('\n' :: s) = noWS s :=
  noWS_cons_ws '\n' s (by decide)

theorem stepSentence_content (count : List Char → Nat) (maxT : Nat)
    (st : ChunkSt) (s : List Char) :
    noWS (contentOf (stepSentence count maxT st s)) =
      noWS (contentOf st) ++ noWS s := by
  obtain ⟨chunks, cur⟩ := st
  simp only [stepSentence]
  split_ifs <;>
    simp_all [contentOf, noWS_append, List.flatten_append, List.flatten_cons,
      List.append_assoc, noWS_eq_nil]

theorem foldSentences_content (count : List Char → Nat) (maxT : Nat)
    (l : List (List Char)) :
    ∀ st : ChunkSt, noWS (contentOf (l.foldl (stepSentence count maxT) st)) =
      noWS (contentOf st) ++ noWS l.flatten := by
  induction l with
  | nil => intro st; simp [noWS_nil]
  | cons s rest ih =>
    intro st
    rw [List.foldl_cons, ih, stepSentence_content, List.flatten_cons,
      noWS_append, List.append_assoc]

theorem stepParagraph_content (count : List Char → Nat) (maxT : Nat)
    (st : ChunkSt) (p : List Char) :
    noWS (contentOf (stepParagraph count maxT st p)) =
      noWS (contentOf st) ++ noWS p := by
  obtain ⟨chunks, cur⟩ := st
  simp only [stepParagraph]
  by_cases h1 : strip p = []
  · rw [if_pos h1, noWS_eq_nil p h1, List.append_nil]
  · rw [if_neg h1]
    by_cases h2 : maxT < count p
    · rw [if_pos h2, foldSentences_content, sentencesOf_flatten]
      split_ifs with h3
      · rfl
      · simp [contentOf, noWS_append, List.flatten_append, List.flatten_cons,
          List.append_assoc]
    · rw [if_neg h2]
      split_ifs <;>
        simp_all [contentOf, noWS_append, List.flatten_append,
          List.flatten_cons, List.append_assoc, noWS_nl]

theorem foldParagraphs_content (count : List Char → Nat) (maxT : Nat)
    (l : List (List Char)) :
    ∀ st : ChunkSt, noWS (contentOf (l.foldl (stepParagraph count maxT) st)) =
      noWS (contentOf st) ++ noWS l.flatten := by
  induction l with
  | nil => intro st; simp [noWS_nil]
  | cons p rest ih =>
    intro st
    rw [List.foldl_cons, ih, stepParagraph_content, List.flatten_cons,
      noWS_append, List.append_assoc]

theorem finalFlush_flatten (st : ChunkSt) :
    noWS (finalFlush st).flatten = noWS (contentOf st) := by
  unfold finalFlush contentOf
  split_ifs with h
  · rw [h, List.append_nil]
  · simp [List.flatten_append, List.flatten_cons, noWS_append]

/-- Content preservation of the Chunk Assembler: the concatenation of the
emitted chunks has exactly the input's non-whitespace characters, in
order. -/
theorem noWS_chunks_flatten (count : List Char → Nat) (text : List Char)
    (maxT : Nat) :
    noWS (split_text_into_chunks count text maxT).flatten = noWS text := by
  unfold split_text_into_chunks
  rw [finalFlush_flatten, foldParagraphs_content, noWS_splitPP_flatten]
  rfl

theorem stepSentence_inv (count : List Char → Nat) (maxT : Nat)
    (text : List Char) (st : ChunkSt) (s : List Char)
    (hs : IsSentenceOf text s) (h : BudgetInv count maxT text st) :
    BudgetInv count maxT text (stepSentence count maxT st s) := by
  obtain ⟨chunks, cur⟩ := st
  obtain ⟨hchunks, hcur⟩ := h
  have hflush : ¬cur = [] →
      ∀ c ∈ chunks ++ [cur], count c ≤ maxT ∨ IsSentenceOf text c := by
    intro hne c hc
    rcases List.mem_append.mp hc with hc | hc
    · exact hchunks c hc
    · rw [List.mem_singleton.mp hc]
      rcases hcur with h4 | h4
      · exact absurd h4 hne
      · exact h4
  simp only [stepSentence]
  split_ifs with h1 h2 h3 h3
  · exact ⟨hchunks, hcur⟩
  · exact ⟨hchunks, Or.inr (Or.inl h3)⟩
  · exact ⟨hchunks, Or.inr (Or.inr hs)⟩
  · exact ⟨hchunks, Or.inr (Or.inl h3)⟩
  · exact ⟨hflush h2, Or.inr (Or.inr hs)⟩

theorem foldSentences_inv (count : List Char → Nat) (maxT : Nat)
    (text : List Char) (p : List Char) (hp : p ∈ splitPP text)
    (l : List (List Char)) :
    (∀ s ∈ l, s ∈ sentencesOf p) → ∀ st, BudgetInv count maxT text st →
      BudgetInv count maxT text (l.foldl (stepSentence count maxT) st) := by
  induction l with
  | nil => intro _ st h; exact h
  | cons s rest ih =>
    intro hl st h
    rw [List.foldl_cons]
    exact ih (fun x hx => hl x (List.mem_cons_of_mem s hx)) _
      (stepSentence_inv count maxT text st s
        ⟨p, hp, hl s (List.mem_cons_self s rest)⟩ h)

theorem stepParagraph_inv (count : List Char → Nat) (maxT : Nat)
    (text : List Char) (p : List Char) (hp : p ∈ splitPP text)
    (st : ChunkSt) (h : BudgetInv count maxT text st) :
    BudgetInv count maxT text (stepParagraph count maxT st p) := by
  obtain ⟨chunks, cur⟩ := st
  obtain ⟨hchunks, hcur⟩ := h
  have hflush : ¬cur = [] →
      ∀ c ∈ chunks ++ [cur], count c ≤ maxT ∨ IsSentenceOf text c := by
    intro hne c hc
    rcases List.mem_append.mp hc with hc | hc
    · exact hchunks c hc
    · rw [List.mem_singleton.mp hc]
      rcases hcur with h4 | h4
      · exact absurd h4 hne
      · exact h4
  simp only [stepParagraph]
  by_cases h1 : strip p = []
  · rw [if_pos h1]
    exact ⟨hchunks, hcur⟩
  · rw [if_neg h1]
    by_cases h2 : maxT < count p
    · rw [if_pos h2]
      apply foldSentences_inv count maxT text p hp (sentencesOf p)
        (fun s hs => hs)
      split_ifs with h3
      · exact ⟨hchunks, hcur⟩
      · exact ⟨hflush h3, Or.inl rfl⟩
    · rw [if_neg h2]
      push_neg at h2
      split_ifs <;>
        first
          | exact ⟨hchunks, Or.inr (Or.inl (by assumption))⟩
          | exact ⟨hchunks, Or.inr (Or.inl h2)⟩
          | exact ⟨hflush (by assumption), Or.inr (Or.inl (by assumption))⟩

theorem foldParagraphs_inv (count : List Char → Nat) (maxT : Nat)
    (text : List Char) (l : List (List Char)) :
    (∀ p ∈ l, p ∈ splitPP text) → ∀ st, BudgetInv count maxT text st →
      BudgetInv count maxT text (l.foldl (stepParagraph count maxT) st) := by
  induction l with
  | nil => intro _ st h; exact h
  | cons p rest ih =>
    intro hl st h
    rw [List.foldl_cons]
    exact ih (fun x hx => hl x (List.mem_cons_of_mem p hx)) _
      (stepParagraph_inv count maxT text p (hl p (List.mem_cons_self p rest))
        st h)

/-- Budget invariant of the emitted chunks: a chunk is within the budget
unless it is a single sentence of the input. -/
theorem chunks_budget (count : List Char → Nat) (maxT : Nat)
    (text : List Char) :
    ∀ c ∈ split_text_into_chunks count text maxT,
      count c ≤ maxT ∨ IsSentenceOf text c := by
  have hinv : BudgetInv count maxT text
      ((splitPP text).foldl (stepParagraph count maxT) ([], [])) := by
    apply foldParagraphs_inv count maxT text (splitPP text) (fun p hp => hp)
    exact ⟨fun c hc => absurd hc (List.not_mem_nil c), Or.inl rfl⟩
  intro c hc
  unfold split_text_into_chunks finalFlush at hc
  split_ifs at hc with h
  · exact hinv.1 c hc
  · rcases List.mem_append.mp hc with hc | hc
    · exact hinv.1 c hc
    · rw [List.mem_singleton.mp hc]
      rcases hinv.2 with h4 | h4
      · exact absurd h4 h
      · exact h4

theorem stepSentence_skip (count : List Char → Nat) (maxT : Nat)
    (st : ChunkSt) (s : List Char) (h : strip s = []) :
    stepSentence count maxT st s = st := by
  unfold stepSentence
  rw [if_pos h]

theorem foldSentences_skip (count : List Char → Nat) (maxT : Nat)
    (l : List (List Char)) :
    (∀ s ∈ l, strip s = []) → ∀ st : ChunkSt,
      l.foldl (stepSentence count maxT) st = st := by
  induction l with
  | nil => intro _ st; rfl
  | cons s rest ih =>
    intro hl st
    rw [List.foldl_cons, stepSentence_skip count maxT st s
      (hl s (List.mem_cons_self s rest))]
    exact ih (fun x hx => hl x (List.mem_cons_of_mem s hx)) st

theorem stepParagraph_skip (count : List Char → Nat) (maxT : Nat)
    (st : ChunkSt) (p : List Char) (h : strip p = []) :
    stepParagraph count maxT st p = st := by
  unfold stepParagraph
  rw [if_pos h]

theorem foldParagraphs_skip (count : List Char → Nat) (maxT : Nat)
    (l : List (List Char)) :
    (∀ p ∈ l, strip p = []) → ∀ st : ChunkSt,
      l.foldl (stepParagraph count maxT) st = st := by
  induction l with
  | nil => intro _ st; rfl
  | cons p rest ih =>
    intro hl st
    rw [List.foldl_cons, stepParagraph_skip count maxT st p
      (hl p (List.mem_cons_self p rest))]
    exact ih (fun x hx => hl x (List.mem_cons_of_mem p hx)) st

theorem chunks_of_ws (count : List Char → Nat) (maxT : Nat)
    (text : List Char) (h : ∀ c ∈ text, isSpaceChar c = true) :
    split_text_into_chunks count text maxT = [] := by
  have hps : ∀ p ∈ splitPP text, strip p = [] := by
    intro p hp
    rw [strip_eq_nil_iff]
    intro c hc
    exact h c (splitPP_mem_chars text p hp c hc)
  unfold split_text_into_chunks
  rw [foldParagraphs_skip count maxT (splitPP text) hps ([], [])]
  rfl

theorem stepSentence_empty_buffer (count : List Char → Nat) (maxT : Nat)
    (chunks : List (List Char)) (s : List Char) (h : strip s ≠ []) :
    stepSentence count maxT (chunks, []) s = (chunks, s) := by
  unfold stepSentence
  rw [if_neg h]
  split_ifs <;> simp_all

theorem oversized_single_sentence (count : List Char → Nat) (maxT : Nat)
    (text s : List Char) (pre post : List (List Char))
    (h1 : splitPP text = [text]) (h2 : maxT < count text)
    (h3 : sentencesOf text = pre ++ s :: post) (h4 : strip s ≠ [])
    (h5 : ∀ x ∈ pre, strip x = []) (h6 : ∀ x ∈ post, strip x = []) :
    split_text_into_chunks count text maxT = [s] := by
  have hs_mem : s ∈ sentencesOf text := by
    rw [h3]
    exact List.mem_append.mpr (Or.inr (List.mem_cons_self s post))
  have hstext : strip text ≠ [] := by
    intro hst
    apply h4
    rw [strip_eq_nil_iff] at hst ⊢
    intro c hc
    apply hst
    have hmem : c ∈ (sentencesOf text).flatten :=
      List.mem_flatten.mpr ⟨s, hs_mem, hc⟩
    rw [sentencesOf_flatten] at hmem
    exact hmem
  have hsnil : s ≠ [] := ne_nil_of_strip_ne_nil s h4
  unfold split_text_into_chunks
  rw [h1, List.foldl_cons, List.foldl_nil]
  unfold stepParagraph
  rw [if_neg hstext, if_pos h2]
  show finalFlush
    ((sentencesOf text).foldl (stepSentence count maxT) ([], [])) = [s]
  rw [h3, List.foldl_append, foldSentences_skip count maxT pre h5 ([], []),
    List.foldl_cons, stepSentence_empty_buffer count maxT [] s h4,
    foldSentences_skip count maxT post h6 ([], s)]
  unfold finalFlush
  rw [if_neg hsnil]
  rfl

theorem overlapLen_succ (r c : List Char) (n : Nat) :
    overlapLen r c (n + 1) =
      if r.drop (r.length - (n + 1)) = c.take (n + 1) then n + 1
      else overlapLen r c n := rfl

theorem overlapLen_le (r c : List Char) (m : Nat) : overlapLen r c m ≤ m := by
  induction m with
  | zero => exact Nat.le_refl 0
  | succ n ih =>
    rw [overlapLen_succ]
    split_ifs with h
    · exact Nat.le_refl _
    · exact Nat.le_succ_of_le ih

theorem overlapLen_matches (r c : List Char) (m : Nat)
    (h : 0 < overlapLen r c m) :
    r.drop (r.length - overlapLen r c m) = c.take (overlapLen r c m) := by
  induction m with
  | zero => exact absurd h (by simp [overlapLen])
  | succ n ih =>
    rw [overlapLen_succ] at h ⊢
    by_cases h1 : r.drop (r.length - (n + 1)) = c.take (n + 1)
    · rw [if_pos h1]
      exact h1
    · rw [if_neg h1] at h ⊢
      exact ih h

theorem overlapLen_greatest (r c : List Char) (m : Nat) :
    ∀ K, overlapLen r c m < K → K ≤ m →
      r.drop (r.length - K) ≠ c.take K := by
  induction m with
  | zero =>
    intro K h1 h2
    have h0 : overlapLen r c 0 = 0 := rfl
    omega
  | succ n ih =>
    intro K h1 h2
    rw [overlapLen_succ] at h1
    by_cases hm : r.drop (r.length - (n + 1)) = c.take (n + 1)
    · rw [if_pos hm] at h1
      omega
    · rw [if_neg hm] at h1
      by_cases hK : K = n + 1
      · rw [hK]
        exact hm
      · exact ih K h1 (by omega)

theorem mergeStep_eq (oc : Nat) (r c : List Char) :
    mergeStep oc r c =
      r ++ c.drop (overlapLen r c (min oc (min r.length c.length))) := by
  simp only [mergeStep]
  split_ifs with h
  · rw [h, List.drop_zero]
  · rfl

theorem foldMerge_sublist (oc : Nat) (rest : List (List Char)) :
    ∀ r : List Char,
      (rest.foldl (mergeStep oc) r).Sublist (r ++ rest.flatten) := by
  induction rest with
  | nil =>
    intro r
    rw [List.foldl_nil, List.flatten_nil, List.append_nil]
  | cons c cs ih =>
    intro r
    rw [List.foldl_cons, List.flatten_cons]
    apply List.Sublist.trans (ih (mergeStep oc r c))
    rw [mergeStep_eq, ← List.append_assoc]
    exact List.Sublist.append_right
      (List.Sublist.append_left (List.drop_sublist _ c) r) cs.flatten

theorem merge_sublist_flatten (chunks : List (List Char)) (oc : Nat) :
    (merge_chunks_with_overlap chunks oc).Sublist chunks.flatten := by
  match chunks with
  | [] => exact List.Sublist.refl []
  | c :: rest =>
    show (rest.foldl (mergeStep oc) c).Sublist (c :: rest).flatten
    rw [List.flatten_cons]
    exact foldMerge_sublist oc rest c

theorem map_clean_fail (l : List (List Char)) :
    l.map (clean_text_chunk_with_llm (fun _ => none)) = l := by
  induction l with
  | nil => rfl
  | cons c cs ih =>
    rw [List.map_cons, ih]
    rfl

theorem noWS_flatten_map_strip (l : List (List Char)) :
    noWS (l.map strip).flatten = noWS l.flatten := by
  induction l with
  | nil => rfl
  | cons c cs ih =>
    rw [List.map_cons, List.flatten_cons, List.flatten_cons, noWS_append,
      noWS_append, noWS_strip, ih]

theorem run_id_sublist (count : List Char → Nat) (text : List Char)
    (maxT oc : Nat) :
    (noWS (run count text maxT (fun s => some s) oc)).Sublist (noWS text) := by
  have h1 := merge_sublist_flatten
    ((split_text_into_chunks count text maxT).map
      (clean_text_chunk_with_llm (fun s => some s))) oc
  have h2 := List.Sublist.filter (fun c => !isSpaceChar c) h1
  have h3 : (split_text_into_chunks count text maxT).map
      (clean_text_chunk_with_llm (fun s => some s)) =
      (split_text_into_chunks count text maxT).map strip := rfl
  have h4 : noWS ((split_text_into_chunks count text maxT).map
      (clean_text_chunk_with_llm (fun s => some s))).flatten = noWS text := by
    rw [h3, noWS_flatten_map_strip, noWS_chunks_flatten]
  show (noWS (merge_chunks_with_overlap
    ((split_text_into_chunks count text maxT).map
      (clean_text_chunk_with_llm (fun s => some s))) oc)).Sublist (noWS text)
  rw [← h4]
  exact h2

theorem run_of_ws (count : List Char → Nat) (text : List Char)
    (maxT oc : Nat) (tf : List Char → Option (List Char))
    (h : ∀ c ∈ text, isSpaceChar c = true) :
    run count text maxT tf oc = [] := by
  unfold run
  rw [chunks_of_ws count maxT text h]
  rfl

theorem findRefsGo_eq (text : List Char) (i n : Nat) :
    findRefsGo text i (n + 1) =
      if refsAt text i = true then some i else findRefsGo text (i + 1) n := rfl

theorem findRefsGo_some (text : List Char) :
    ∀ fuel i j, findRefsGo text i fuel = some j →
      i ≤ j ∧ refsAt text j = true ∧
        ∀ k, i ≤ k → k < j → refsAt text k = false := by
  intro fuel
  induction fuel with
  | zero =>
    intro i j h
    exact absurd h (by simp [findRefsGo])
  | succ n ih =>
    intro i j h
    rw [findRefsGo_eq] at h
    by_cases hi : refsAt text i = true
    · rw [if_pos hi] at h
      obtain rfl := Option.some.inj h
      exact ⟨Nat.le_refl i, hi, fun k hk1 hk2 => absurd hk2 (by omega)⟩
    · rw [if_neg hi] at h
      obtain ⟨ha, hb, hc⟩ := ih (i + 1) j h
      refine ⟨by omega, hb, ?_⟩
      intro k hk1 hk2
      by_cases hk : k = i
      · rw [hk]
        exact Bool.eq_false_iff.mpr hi
      · exact hc k (by omega) hk2

theorem findRefsGo_none (text : List Char) :
    ∀ fuel i, findRefsGo text i fuel = none →
      ∀ k, i ≤ k → k < i + fuel → refsAt text k = false := by
  intro fuel
  induction fuel with
  | zero =>
    intro i _ k hk1 hk2
    omega
  | succ n ih =>
    intro i h k hk1 hk2
    rw [findRefsGo_eq] at h
    by_cases hi : refsAt text i = true
    · rw [if_pos hi] at h
      exact absurd h (by simp)
    · rw [if_neg hi] at h
      by_cases hk : k = i
      · rw [hk]
        exact Bool.eq_false_iff.mpr hi
      · exact ih (i + 1) h k (by omega) (by omega)

theorem refsAt_ge (text : List Char) (j : Nat) (h : text.length ≤ j) :
    refsAt text j = false := by
  unfold refsAt
  rw [List.drop_eq_nil_of_le h]
  rfl

/-- C1: the Overlap Merger, iterating chunks in order with an accumulator
seeded as the first chunk's text, for each subsequent chunk finds the
longest length L from `min(max_overlap_chars, len(accumulator),
len(chunk))` down to 1 such that the accumulator's suffix of length L
equals the chunk's prefix of length L, and appends only the chunk's
content after its first L characters; in particular merging
`["The quick brown fox", " brown fox jumps"]` with `max_overlap_chars=20`
yields `"The quick brown fox jumps"`, and merging `["abc", "xyz"]` yields
`"abcxyz"`. -/
theorem C1_overlap_merger :
    (∀ (r c : List Char) (m : Nat), overlapLen r c m ≤ m ∧
      (0 < overlapLen r c m →
        r.drop (r.length - overlapLen r c m) = c.take (overlapLen r c m)) ∧
      (∀ K, overlapLen r c m < K → K ≤ m →
        r.drop (r.length - K) ≠ c.take K)) ∧
    (∀ (oc : Nat) (r c : List Char), mergeStep oc r c =
      r ++ c.drop (overlapLen r c (min oc (min r.length c.length)))) ∧
    merge_chunks_with_overlap
      ["The quick brown fox".toList, " brown fox jumps".toList] 20 =
      "The quick brown fox jumps".toList ∧
    merge_chunks_with_overlap ["abc".toList, "xyz".toList] 20 =
      "abcxyz".toList := by
  refine ⟨fun r c m => ⟨overlapLen_le r c m, overlapLen_matches r c m,
    overlapLen_greatest r c m⟩, mergeStep_eq, by decide, by decide⟩

/-- Witness for C1 at a concrete input: the overlap search on
accumulator `"a"` and chunk `"ab"` with bound 1 finds a matching
suffix/prefix pair. -/
theorem C1_witness :
    List.drop (List.length ['a'] - overlapLen ['a'] ['a', 'b'] 1) ['a'] =
      List.take (overlapLen ['a'] ['a', 'b'] 1) ['a', 'b'] :=
  (C1_overlap_merger.1 ['a'] ['a', 'b'] 1).2.1 (by decide)

/-- C2: for every input text, every `max_tokens`, and every tokenizer
count function, a chunk produced by the Chunk Assembler whose token count
exceeds `max_tokens` is a single sentence of the input (the
single-oversized-sentence escape case); all other chunks satisfy
`count(chunk) <= max_tokens`. -/
theorem C2_budget_invariant (count : List Char → Nat) (maxT : Nat)
    (text c : List Char) (hc : c ∈ split_text_into_chunks count text maxT)
    (hover : maxT < count c) : IsSentenceOf text c := by
  rcases chunks_budget count maxT text c hc with h | h
  · omega
  · exact h

/-- Witness for C2 at a concrete input: with `count = length` and
`max_tokens = 1`, the paragraph `"ab."` is emitted as an over-budget
chunk and is indeed a single sentence of the input. -/
theorem C2_witness : IsSentenceOf ['a', 'b', '.'] ['a', 'b', '.'] :=
  C2_budget_invariant List.length 1 ['a', 'b', '.'] ['a', 'b', '.']
    (by decide) (by decide)

/-- C3 as stated is false on the code: the merge step can silently drop
content at a chunk boundary.  With input `"aa\n\na"`, `count = length`,
`max_tokens = 2` and the identity transform, the chunks are `["aa", "a"]`
and the merge finds the spurious one-character overlap `"a"`, so the
output `"aa"` loses the second paragraph: the input's non-whitespace
content is not contained in the output's. -/
theorem C3_counterexample :
    ('a' :: 'a' :: '\n' :: '\n' :: 'a' :: []) ≠ [] ∧ (1 : Nat) ≤ 2 ∧
    ¬ (noWS ('a' :: 'a' :: '\n' :: '\n' :: 'a' :: [])).Sublist
        (noWS (run List.length ('a' :: 'a' :: '\n' :: '\n' :: 'a' :: []) 2
          (fun s => some s) 100)) := by
  refine ⟨by decide, by decide, by decide⟩

/-- C3 amended: with the identity transform the pipeline's output
contains, in original order, the input's non-whitespace content as an
upper bound (nothing new is added and order is preserved: the output's
non-whitespace content is a subsequence of the input's), and at each
merge boundary either the chunks are concatenated directly or exactly a
prefix of the next chunk is elided, and only when that prefix exactly
duplicates the accumulator's suffix of the same length (at most
`max_overlap_chars` long); content is dropped only in that
spurious-duplicate case. -/
theorem C3_amended :
    (∀ (oc : Nat) (r c : List Char), mergeStep oc r c = r ++ c ∨
      ∃ L, 0 < L ∧ L ≤ oc ∧ L ≤ r.length ∧ L ≤ c.length ∧
        r.drop (r.length - L) = c.take L ∧
        mergeStep oc r c = r ++ c.drop L) ∧
    ∀ (count : List Char → Nat) (text : List Char) (maxT oc : Nat),
      (noWS (run count text maxT (fun s => some s) oc)).Sublist
        (noWS text) := by
  constructor
  · intro oc r c
    have hmin1 : min oc (min r.length c.length) ≤ oc := Nat.min_le_left _ _
    have hmin2 : min oc (min r.length c.length) ≤ min r.length c.length :=
      Nat.min_le_right _ _
    have hmin3 : min r.length c.length ≤ r.length := Nat.min_le_left _ _
    have hmin4 : min r.length c.length ≤ c.length := Nat.min_le_right _ _
    have hle := overlapLen_le r c (min oc (min r.length c.length))
    by_cases h : overlapLen r c (min oc (min r.length c.length)) = 0
    · left
      rw [mergeStep_eq, h, List.drop_zero]
    · right
      exact ⟨overlapLen r c (min oc (min r.length c.length)),
        Nat.pos_of_ne_zero h, by omega, by omega, by omega,
        overlapLen_matches r c _ (Nat.pos_of_ne_zero h), mergeStep_eq oc r c⟩
  · exact run_id_sublist

/-- C4: a paragraph consisting of exactly one sentence (every other
sentence piece is whitespace-only) whose token count exceeds
`max_tokens` is emitted by the Chunk Assembler as exactly one chunk
containing the full sentence, never truncated and never subdivided. -/
theorem C4_oversized_sentence (count : List Char → Nat) (maxT : Nat)
    (text s : List Char) (pre post : List (List Char))
    (h1 : splitPP text = [text]) (h2 : maxT < count text)
    (h3 : sentencesOf text = pre ++ s :: post) (h4 : strip s ≠ [])
    (h5 : ∀ x ∈ pre, strip x = []) (h6 : ∀ x ∈ post, strip x = []) :
    split_text_into_chunks count text maxT = [s] :=
  oversized_single_sentence count maxT text s pre post h1 h2 h3 h4 h5 h6

/-- Witness for C4 at a concrete input: the one-sentence paragraph
`"ab."` with `count = length` and `max_tokens = 1` is emitted as the
single chunk `"ab."`. -/
theorem C4_witness :
    split_text_into_chunks List.length ['a', 'b', '.'] 1 = [['a', 'b', '.']] :=
  C4_oversized_sentence List.length 1 ['a', 'b', '.'] ['a', 'b', '.'] [] [[]]
    (by decide) (by decide) (by decide) (by decide) (by decide) (by decide)

/-- C5: the Chunk Assembler emits chunks in the same relative order as
their source text, drops no paragraph or sentence content, and places
each piece of content exactly once: the concatenation of the emitted
chunks has exactly the input's non-whitespace characters in the input's
order. -/
theorem C5_no_content_dropped (count : List Char → Nat) (text : List Char)
    (maxT : Nat) :
    noWS (split_text_into_chunks count text maxT).flatten = noWS text :=
  noWS_chunks_flatten count text maxT

/-- C6: if the per-chunk transform fails for a chunk, that chunk's
original untransformed text is substituted in its place, and with a
transform that always fails the pipeline returns the merge of the
original untransformed chunks. -/
theorem C6_transform_failure_fallback :
    (∀ (tf : List Char → Option (List Char)) (c : List Char), tf c = none →
      clean_text_chunk_with_llm tf c = c) ∧
    ∀ (count : List Char → Nat) (text : List Char) (maxT oc : Nat),
      run count text maxT (fun _ => none) oc =
        merge_chunks_with_overlap (split_text_into_chunks count text maxT)
          oc := by
  constructor
  · intro tf c h
    unfold clean_text_chunk_with_llm
    rw [h]
  · intro count text maxT oc
    simp only [run]
    rw [map_clean_fail]

/-- Witness for C6 at a concrete input: an always-failing transform
leaves the chunk `"a"` unchanged. -/
theorem C6_witness :
    clean_text_chunk_with_llm (fun _ => none) ['a'] = ['a'] :=
  C6_transform_failure_fallback.1 (fun _ => none) ['a'] rfl

/-- C7: on input with no non-whitespace content the Chunk Assembler
produces no chunks, so the pipeline returns the empty string without
invoking the transform for any chunk. -/
theorem C7_empty_input (count : List Char → Nat) (text : List Char)
    (maxT oc : Nat) (tf : List Char → Option (List Char))
    (h : ∀ c ∈ text, isSpaceChar c = true) :
    split_text_into_chunks count text maxT = [] ∧
      run count text maxT tf oc = [] :=
  ⟨chunks_of_ws count maxT text h, run_of_ws count text maxT oc tf h⟩

/-- Witness for C7 at a concrete input: the whitespace-only text
`"\n "` yields no chunks and an empty pipeline result. -/
theorem C7_witness :
    split_text_into_chunks List.length ['\n', ' '] 5 = [] ∧
      run List.length ['\n', ' '] 5 (fun s => some s) 100 = [] :=
  C7_empty_input List.length ['\n', ' '] 5 100 (fun s => some s) (by decide)

/-- C8 as stated is false on the code: a text with no blank lines need
not yield exactly one paragraph, since a whitespace-only text (such as
`" "`) yields zero paragraphs after the empty-after-trimming discard. -/
theorem C8_counterexample :
    hasBlankLine [' '] = false ∧ (paragraphsOf [' ']).length ≠ 1 := by
  refine ⟨rfl, by decide⟩

/-- C8 amended: the Boundary Splitter splits the input on occurrences of
the exact two-newline delimiter into paragraphs — rejoining the pieces
with that delimiter reconstructs the input and no piece contains a blank
line — and discards paragraphs that are empty after trimming whitespace;
it is a total, deterministic, pure function, and a text with no blank
lines and at least one non-whitespace character yields exactly one
paragraph, the text itself. -/
theorem C8_amended (t : List Char) :
    unsplitPP (splitPP t) = t ∧
    (∀ p ∈ splitPP t, hasBlankLine p = false) ∧
    (hasBlankLine t = false → strip t ≠ [] → paragraphsOf t = [t]) := by
  refine ⟨unsplit_splitPP t, splitPP_noBlank t, ?_⟩
  intro hb hs
  have hf : (strip t).isEmpty = false := by
    cases hst : strip t with
    | nil => exact absurd hst hs
    | cons a l => rfl
  unfold paragraphsOf
  rw [splitPP_of_noBlank t hb]
  simp [List.filter_cons, hf]

/-- Witness for C8 at a concrete input: the blank-line-free text `"a"`
reconstructs from its split and yields exactly one paragraph. -/
theorem C8_witness :
    unsplitPP (splitPP ['a']) = ['a'] ∧ paragraphsOf ['a'] = [['a']] :=
  ⟨(C8_amended ['a']).1, (C8_amended ['a']).2.2 (by decide) (by decide)⟩

/-- C9: for every `max_overlap_chars`, the Overlap Merger returns the
empty string on an empty chunk sequence and returns a single chunk's
text unchanged, with no overlap search performed. -/
theorem C9_merge_trivial_cases :
    (∀ oc : Nat, merge_chunks_with_overlap [] oc = []) ∧
    ∀ (oc : Nat) (c : List Char), merge_chunks_with_overlap [c] oc = c :=
  ⟨fun _ => rfl, fun _ _ => rfl⟩

/-- C10: the references-removal step returns the prefix of the input
strictly before the first case-insensitive occurrence of the substring
REFERENCES, returns the input unchanged when there is no occurrence, and
its output is always a prefix of its input. -/
theorem C10_remove_references (text : List Char) :
    (∃ r, remove_references_section text ++ r = text) ∧
    (∀ i, findRefs text = some i →
      remove_references_section text = text.take i ∧ refsAt text i = true ∧
        ∀ j, j < i → refsAt text j = false) ∧
    (findRefs text = none →
      remove_references_section text = text ∧
        ∀ j, refsAt text j = false) := by
  refine ⟨?_, ?_, ?_⟩
  · unfold remove_references_section
    match h : findRefs text with
    | some i => exact ⟨text.drop i, List.take_append_drop i text⟩
    | none => exact ⟨[], List.append_nil text⟩
  · intro i h
    have h2 := findRefsGo_some text text.length 0 i h
    refine ⟨?_, h2.2.1, fun j hj => h2.2.2 j (Nat.zero_le j) hj⟩
    unfold remove_references_section
    rw [h]
  · intro h
    constructor
    · unfold remove_references_section
      rw [h]
    · intro j
      by_cases hj : j < text.length
      · exact findRefsGo_none text text.length 0 h j (Nat.zero_le j)
          (by omega)
      · exact refsAt_ge text j (by omega)

/-- Witness for C10 at a concrete input: on `"xREFERENCESy"` the first
occurrence is at position 1, so the output is the one-character prefix
before it. -/
theorem C10_witness :
    remove_references_section ('x' :: "REFERENCESy".toList) =
      List.take 1 ('x' :: "REFERENCESy".toList) ∧
    refsAt ('x' :: "REFERENCESy".toList) 1 = true := by
  have h := (C10_remove_references ('x' :: "REFERENCESy".toList)).2.1 1
    (by decide)
  exact ⟨h.1, h.2.1⟩
